import Mathlib

/-!
# Verification of the x-mozi ordered TTS pipeline

Shallow embedding of the repository's core components and proofs about them:

* the sentence segmenter (`src/utils/sentenceExtractor.ts`):
  `extractSentences`, `forceSplitText`, `processRemainingText`;
* the ordered task queue (`src/store/ttsQueueStore.ts`):
  tasks, `addTask`, `addTasks`, `updateTaskStatus`, `getNextPendingTask`,
  `getNextPlayableTask`, `markAsPlayed`, `clearQueue`, `reset`;
* the bounded concurrent executor (`src/hooks/useTTSExecutor.ts`):
  `tryStartTasks`, `processTask`, `tryPlayNext`, modelled as a labelled
  transition system whose interleavings cover the single-threaded
  asynchronous schedules of the source.

JS strings are modelled as `List Char` (all characters appearing in this
development live in the basic multilingual plane, where the JS UTF-16 code
unit count coincides with the character count).
-/

namespace XMozi

/-! ## Sentence segmenter (src/utils/sentenceExtractor.ts) -/

/-- The characters of the JS whitespace class `\s` (as used by `trim` and by
the `\s` inside `isPunctuationOnly`'s regex). -/
def jsWhitespace (c : Char) : Bool :=
  c = ' ' || c = '\t' || c = '\n' || c = '\r' ||
  c = '\x0b' || c = '\x0c' || c = ' ' || c = ' ' ||
  (' ' ≤ c && c ≤ ' ') || c = ' ' || c = ' ' ||
  c = ' ' || c = ' ' || c = '　' || c = '﻿'

/-- Membership in the Unicode punctuation category `\p{P}`, restricted to the
ASCII punctuation plus the common CJK punctuation actually reachable in this
development (the full Unicode table is not reproduced; every character listed
here is genuinely in `\p{P}`). -/
def jsPunct (c : Char) : Bool :=
  c = '!' || c = '"' || c = '#' || c = '%' || c = '&' || c = '\'' ||
  c = '(' || c = ')' || c = '*' || c = ',' || c = '-' || c = '.' ||
  c = '/' || c = ':' || c = ';' || c = '?' || c = '@' || c = '[' ||
  c = '\\' || c = ']' || c = '_' || c = '\x7b' || c = '\x7d' ||
  c = '。' || c = '，' || c = '、' || c = '；' || c = '：' || c = '？' ||
  c = '！' || c = '（' || c = '）' || c = '【' || c = '】' ||
  c = '《' || c = '》' || c = '「' || c = '」' || c = '『' || c = '』' ||
  c = '…' || c = '—' || c = '·'

/-- `String.prototype.trimStart` on the JS whitespace class. -/
def jsTrimStart (l : List Char) : List Char :=
  l.dropWhile jsWhitespace

/-- `String.prototype.trimEnd` on the JS whitespace class. -/
def jsTrimEnd (l : List Char) : List Char :=
  (l.reverse.dropWhile jsWhitespace).reverse

/-- `String.prototype.trim` on the JS whitespace class. -/
def jsTrim (l : List Char) : List Char :=
  jsTrimEnd (jsTrimStart l)

/-- `toUpperCase` (the abbreviation list below is pure ASCII, for which
`Char.toUpper` agrees with the JS conversion). -/
def jsToUpper (l : List Char) : List Char :=
  l.map Char.toUpper

/-- The sentence-ending punctuation class `SENTENCE_ENDERS = /([。？！!?；;])/`. -/
def isSentenceEnder (c : Char) : Bool :=
  c = '。' || c = '？' || c = '！' || c = '!' || c = '?' || c = '；' || c = ';'

/-- `ABBREVIATIONS`: common English abbreviations that must not terminate a
sentence. -/
def ABBREVIATIONS : List (List Char) :=
  ["Mr.".data, "Mrs.".data, "Ms.".data, "Dr.".data, "Prof.".data, "Sr.".data,
   "Jr.".data, "vs.".data, "etc.".data, "i.e.".data, "e.g.".data, "a.m.".data,
   "p.m.".data, "Inc.".data, "Ltd.".data, "Co.".data, "Corp.".data, "St.".data,
   "Ave.".data, "Blvd.".data, "Rd.".data, "No.".data, "Vol.".data, "Fig.".data,
   "al.".data]

/-- `DEFAULT_MIN_LENGTH`. -/
def DEFAULT_MIN_LENGTH : Nat := 8

/-- `endsWithAbbreviation(text)`: does the trimmed text end with one of the
abbreviations (case-insensitively)? -/
def endsWithAbbreviation (text : List Char) : Bool :=
  let trimmed := jsTrimEnd text
  ABBREVIATIONS.any fun abbr => (jsToUpper abbr).isSuffixOf (jsToUpper trimmed)

/-- `isPunctuationOnly(text)`: the regex `^[\s\p{P}]*$` — every character is
whitespace or punctuation. -/
def isPunctuationOnly (text : List Char) : Bool :=
  text.all fun c => jsWhitespace c || jsPunct c

/-- `text.split(SENTENCE_ENDERS)` with the capture group: the parts alternate
between (possibly empty) runs without enders and single-ender parts, and both
kinds are kept. -/
def splitKeepEnders : List Char → List (List Char)
  | [] => [[]]
  | c :: cs =>
    if isSentenceEnder c then
      [] :: [c] :: splitKeepEnders cs
    else
      match splitKeepEnders cs with
      | p :: ps => (c :: p) :: ps
      | [] => [[c]]

/-- `SENTENCE_ENDERS.test(part)`: the part contains an ender. -/
def containsEnder (part : List Char) : Bool :=
  part.any isSentenceEnder

/-- The `for` loop of `extractSentences`, folded over the split parts with the
accumulated complete sentences and the current buffer. -/
def extractLoop (minLength : Nat) :
    List (List Char) → List (List Char) → List Char →
    List (List Char) × List Char
  | [], acc, buffer => (acc, buffer)
  | part :: parts, acc, buffer =>
    if containsEnder part then
      -- the part is a single ender: append it to the buffer and decide
      let buffer := buffer ++ part
      if endsWithAbbreviation buffer then
        extractLoop minLength parts acc buffer
      else
        let trimmedBuffer := jsTrim buffer
        if minLength ≤ trimmedBuffer.length && !isPunctuationOnly trimmedBuffer then
          extractLoop minLength parts (acc ++ [trimmedBuffer]) []
        else
          extractLoop minLength parts acc buffer
    else
      extractLoop minLength parts acc (buffer ++ part)

/-- `extractSentences(text, minLength)`: extract the complete sentences and
the remaining incomplete tail. -/
def extractSentences (text : List Char) (minLength : Nat) :
    List (List Char) × List Char :=
  if text = [] ∨ jsTrim text = [] then
    ([], text)
  else
    extractLoop minLength (splitKeepEnders text) [] []

/-- One character of segmentation: the effect of the loop body on the buffer
when a single character arrives, returning the (zero or one) emitted
sentences. -/
def stepChar (minLength : Nat) (buffer : List Char) (c : Char) :
    List (List Char) × List Char :=
  if isSentenceEnder c then
    let buffer := buffer ++ [c]
    if endsWithAbbreviation buffer then
      ([], buffer)
    else
      let trimmedBuffer := jsTrim buffer
      if minLength ≤ trimmedBuffer.length && !isPunctuationOnly trimmedBuffer then
        ([trimmedBuffer], [])
      else
        ([], buffer)
  else
    ([], buffer ++ [c])

/-- Character-by-character restatement of the loop of `extractSentences`. -/
def procChars (minLength : Nat) :
    List (List Char) → List Char → List Char → List (List Char) × List Char
  | acc, buffer, [] => (acc, buffer)
  | acc, buffer, c :: cs =>
    let r := stepChar minLength buffer c
    procChars minLength (acc ++ r.1) r.2 cs

/-- The character-by-character feeding protocol of claim C7: each step calls
`extractSentences` on the previous remainder extended by the next character,
accumulating the emitted sentences. -/
def feedChars (minLength : Nat) :
    List (List Char) × List Char → List Char → List (List Char) × List Char
  | (acc, rem), [] => (acc, rem)
  | (acc, rem), c :: cs =>
    let r := extractSentences (rem ++ [c]) minLength
    feedChars minLength (acc ++ r.1, r.2) cs

/-- The chunking loop of `forceSplitText`: `for (i = 0; i < len; i += maxLength)`
pushing each trimmed, non-empty slice. `maxLength = 0` makes the source loop
diverge; the model returns `[]` in that (never exercised) case. -/
def forceChunks (maxLength : Nat) : Nat → List Char → List (List Char)
  | 0, _ => []
  | _, [] => []
  | fuel + 1, l =>
    let chunk := jsTrim (l.take maxLength)
    let rest := forceChunks maxLength fuel (l.drop maxLength)
    if chunk = [] then rest else chunk :: rest

/-- `forceSplitText(text, maxLength)`: hard split into chunks of at most
`maxLength` characters.  The fuel `trimmed.length` makes the recursion
structural; for `maxLength ≥ 1` every loop iteration drops at least one
character, so the fuel is never exhausted before the list is. -/
def forceSplitText (text : List Char) (maxLength : Nat) : List (List Char) :=
  let trimmed := jsTrim text
  if trimmed = [] then []
  else if trimmed.length ≤ maxLength then [trimmed]
  else forceChunks maxLength trimmed.length trimmed

/-- `processRemainingText(remaining, maxLength)`: final flush of the
incomplete tail. -/
def processRemainingText (remaining : List Char) (maxLength : Nat) :
    List (List Char) :=
  let trimmed := jsTrim remaining
  if trimmed = [] || isPunctuationOnly trimmed then []
  else if maxLength < trimmed.length then forceSplitText trimmed maxLength
  else [trimmed]

/-! ## Ordered task queue (src/store/ttsQueueStore.ts) -/

/-- Task lifecycle states (`TTSTaskStatus`):
`'pending' | 'processing' | 'completed' | 'error'`. -/
inductive TTSTaskStatus
  | pending
  | processing
  | completed
  | error
deriving DecidableEq

/-- A TTS task (`TTSTask`).  The source's random string id (`generateTaskId`)
is modelled by a natural number; `addTask`/`addTasks` issue the current
`nextOrder` counter as the fresh id, reflecting the source's reliance on
generated ids being unique.  Audio payloads (`Uint8Array`) are byte lists. -/
structure TTSTask where
  id : Nat
  order : Nat
  text : String
  status : TTSTaskStatus
  audioData : Option (List Nat)
  error : Option String
deriving DecidableEq

/-- The queue store state (`TTSQueueState`). -/
structure TTSQueueState where
  tasks : List TTSTask
  nextOrder : Nat
  nextPlayOrder : Nat
  processingCount : Nat
  isAllCompleted : Bool
deriving DecidableEq

/-- The store's initial state (also the state set by `clearQueue`/`reset`). -/
def initialState : TTSQueueState :=
  { tasks := [], nextOrder := 0, nextPlayOrder := 0, processingCount := 0,
    isAllCompleted := true }

/-- The task-list update inside `updateTaskStatus`: map over the tasks,
replacing status, payload and error of every task whose id matches (the
payload and error fields are overwritten even when absent, as in the source's
`{ ...task, status, audioData, error }`). -/
def updTask (id : Nat) (status : TTSTaskStatus)
    (audioData : Option (List Nat)) (error : Option String)
    (task : TTSTask) : TTSTask :=
  if task.id = id then
    { task with status := status, audioData := audioData, error := error }
  else task

/-- See `updTask`: the full task-list map of `updateTaskStatus`. -/
def updTasks (id : Nat) (status : TTSTaskStatus)
    (audioData : Option (List Nat)) (error : Option String)
    (tasks : List TTSTask) : List TTSTask :=
  tasks.map (updTask id status audioData error)

/-- A task in a terminal state (`completed` or `error`). -/
def isTerminal (t : TTSTask) : Bool :=
  t.status == .completed || t.status == .error

/-- The recomputation of `isAllCompleted` inside `updateTaskStatus`:
`newTasks.length > 0 && newTasks.every(t => completed || error)`. -/
def allCompletedSpec (tasks : List TTSTask) : Bool :=
  decide (0 < tasks.length) && tasks.all isTerminal

/-- The fresh pending task created on enqueue: id and order are the current
counter value. -/
def freshTask (text : String) (n : Nat) : TTSTask :=
  { id := n, order := n, text := text, status := .pending,
    audioData := none, error := none }

/-- `addTask(text)`: append a fresh pending task with order `nextOrder`,
increment `nextOrder`, clear `isAllCompleted`; returns the fresh id. -/
def addTask (text : String) (s : TTSQueueState) : Nat × TTSQueueState :=
  let id := s.nextOrder
  (id,
    { s with
      tasks := s.tasks ++ [freshTask text s.nextOrder],
      nextOrder := s.nextOrder + 1,
      isAllCompleted := false })

/-- The batch of fresh pending tasks built by `addTasks` (ids and orders are
`currentOrder + index`). -/
def mkTasks : Nat → List String → List TTSTask
  | _, [] => []
  | n, text :: rest => freshTask text n :: mkTasks (n + 1) rest

/-- `addTasks(texts)`: append a batch of fresh pending tasks, advance
`nextOrder` by the batch size, clear `isAllCompleted` (note: also when the
batch is empty, as in the source). -/
def addTasks (texts : List String) (s : TTSQueueState) : TTSQueueState :=
  { s with
    tasks := s.tasks ++ mkTasks s.nextOrder texts,
    nextOrder := s.nextOrder + texts.length,
    isAllCompleted := false }

/-- `updateTaskStatus(id, status, audioData?, error?)`: rewrite the matching
task and recompute `processingCount` and `isAllCompleted` from the new list. -/
def updateTaskStatus (id : Nat) (status : TTSTaskStatus)
    (audioData : Option (List Nat)) (error : Option String)
    (s : TTSQueueState) : TTSQueueState :=
  let newTasks := updTasks id status audioData error s.tasks
  { s with
    tasks := newTasks,
    processingCount := (newTasks.filter fun t => t.status == .processing).length,
    isAllCompleted := allCompletedSpec newTasks }

/-- Stable insertion of a task into a list sorted by `order` (the model of
`Array.prototype.sort` with the comparator `(a, b) => a.order - b.order`,
which the JS specification requires to be stable). -/
def insertByOrder (t : TTSTask) : List TTSTask → List TTSTask
  | [] => [t]
  | u :: us => if t.order < u.order then t :: u :: us else u :: insertByOrder t us

/-- Stable sort of tasks by `order`. -/
def sortByOrder : List TTSTask → List TTSTask
  | [] => []
  | t :: ts => insertByOrder t (sortByOrder ts)

/-- `getNextPendingTask()`: the lowest-order task still `pending`. -/
def getNextPendingTask (s : TTSQueueState) : Option TTSTask :=
  (sortByOrder (s.tasks.filter fun t => t.status == .pending)).head?

/-- `getNextPlayableTask()`: the task whose order equals `nextPlayOrder`,
provided it is `completed` and carries audio data (any `Uint8Array`, even an
empty one, is truthy in the source). -/
def getNextPlayableTask (s : TTSQueueState) : Option TTSTask :=
  s.tasks.find? fun t =>
    t.order == s.nextPlayOrder && t.status == .completed && t.audioData.isSome

/-- `markAsPlayed(id)`: if a task with this id exists, increment
`nextPlayOrder` (unconditionally — regardless of that task's own order). -/
def markAsPlayed (id : Nat) (s : TTSQueueState) : TTSQueueState :=
  match s.tasks.find? fun t => t.id == id with
  | none => s
  | some _ => { s with nextPlayOrder := s.nextPlayOrder + 1 }

/-- `clearQueue()`: reset everything. -/
def clearQueue (_s : TTSQueueState) : TTSQueueState := initialState

/-- `reset()`: identical to `clearQueue()`. -/
def reset (_s : TTSQueueState) : TTSQueueState := initialState

/-- The store's mutating operations, as invokable by any caller. -/
inductive QOp
  | addTask (text : String)
  | addTasks (texts : List String)
  | updateTaskStatus (id : Nat) (status : TTSTaskStatus)
      (audioData : Option (List Nat)) (error : Option String)
  | markAsPlayed (id : Nat)
  | clearQueue
  | reset

/-- Apply one store operation. -/
def applyQOp : QOp → TTSQueueState → TTSQueueState
  | .addTask text, s => (addTask text s).2
  | .addTasks texts, s => addTasks texts s
  | .updateTaskStatus id st a e, s => updateTaskStatus id st a e s
  | .markAsPlayed id, s => markAsPlayed id s
  | .clearQueue, s => clearQueue s
  | .reset, s => reset s

/-- Queue states reachable from the initial state by any sequence of store
operations with any arguments. -/
inductive QReachable : TTSQueueState → Prop
  | init : QReachable initialState
  | step {s : TTSQueueState} (op : QOp) : QReachable s → QReachable (applyQOp op s)

/-- The synchronous drain loop of the executor's `tryPlayNext`: while the task
at the cursor is completed with audio, hand its payload to `onAudio` (append
it to the emission log) and `markAsPlayed` it.  The source recurses until no
playable task remains; a task can only be played when its order equals the
current cursor and distinct iterations target distinct cursor values, so at
most `tasks.length` iterations are ever possible and that fuel makes the
recursion structural without cutting it short. -/
def drainPlay : Nat → TTSQueueState → List (List Nat) →
    TTSQueueState × List (List Nat)
  | 0, s, log => (s, log)
  | fuel + 1, s, log =>
    match getNextPlayableTask s with
    | none => (s, log)
    | some t => drainPlay fuel (markAsPlayed t.id s) (log ++ [t.audioData.getD []])

/-! ## Bounded concurrent executor (src/hooks/useTTSExecutor.ts) -/

/-- The combined state of the queue store and the executor hook: the queue,
the `processingIdsRef` set of in-flight task ids, and the chronological log of
payloads handed to the `onAudio` playback callback. -/
structure ExecState where
  q : TTSQueueState
  inflight : List Nat
  played : List (List Nat)
deriving DecidableEq

/-- The initial combined state. -/
def initExec : ExecState :=
  { q := initialState, inflight := [], played := [] }

/-- The error message `processTask` records when the markdown-cleaned text is
empty. -/
def emptyTextMsg : String := "文本为空"

/-- The events of the executor/queue transition system.  Each event is one
atomic synchronous run-to-completion segment of the single-threaded source
between suspension points; interleaving events in any order covers every
schedule of the asynchronous callbacks.

* `enq text` — the controller enqueues a sentence (`addTask`).
* `start` — one iteration of the claim loop in `tryStartTasks`: read
  `getNextPendingTask`, mark it `processing`, add its id to
  `processingIdsRef` (all are synchronous, before the first `await` of
  `processTask`).
* `completeOk id payload` — `streamTextToSpeech` resolved: mark the task
  `completed` with the merged payload, run `tryPlayNext` to exhaustion,
  release the slot.
* `failSynth id err` — synthesis rejected while not aborted: mark the task
  `error`, call `markAsPlayed(id)`, run `tryPlayNext`, release the slot.
* `failEmpty id` — the cleaned text was empty: mark the task `error` and
  return early (no cursor advance, no `tryPlayNext`).  The source guard
  `cleanMarkdown(text).trim() === ''` is not modelled; the event is simply
  allowed for any in-flight task, as the source allows it for tasks whose
  text cleans to nothing (for example `"# a"`).
* `stopClear` — `stopAndClear()`: abort in-flight work, clear
  `processingIdsRef`, clear the queue.
* `staleComplete id payload` — a synthesis success callback for a task whose
  queue generation was already cleared: the success path of `processTask` has
  no abort check, so it still runs `updateTaskStatus` and `tryPlayNext`. -/
inductive EEvent
  | enq (text : String)
  | start
  | completeOk (id : Nat) (payload : List Nat)
  | failSynth (id : Nat) (err : String)
  | failEmpty (id : Nat)
  | stopClear
  | staleComplete (id : Nat) (payload : List Nat)

/-- Effect of one event on the combined state. -/
def applyEvent : EEvent → ExecState → ExecState
  | .enq text, s => { s with q := (addTask text s.q).2 }
  | .start, s =>
    match getNextPendingTask s.q with
    | none => s
    | some t =>
      { s with
        q := updateTaskStatus t.id .processing none none s.q,
        inflight := t.id :: s.inflight }
  | .completeOk id payload, s =>
    let q1 := updateTaskStatus id .completed (some payload) none s.q
    let r := drainPlay q1.tasks.length q1 s.played
    { q := r.1, inflight := s.inflight.erase id, played := r.2 }
  | .failSynth id err, s =>
    let q1 := updateTaskStatus id .error none (some err) s.q
    let q2 := markAsPlayed id q1
    let r := drainPlay q2.tasks.length q2 s.played
    { q := r.1, inflight := s.inflight.erase id, played := r.2 }
  | .failEmpty id, s =>
    { s with
      q := updateTaskStatus id .error none (some emptyTextMsg) s.q,
      inflight := s.inflight.erase id }
  | .stopClear, s =>
    { q := clearQueue s.q, inflight := [], played := s.played }
  | .staleComplete id payload, s =>
    let q1 := updateTaskStatus id .completed (some payload) none s.q
    let r := drainPlay q1.tasks.length q1 s.played
    { q := r.1, inflight := s.inflight, played := r.2 }

/-- Enabling condition of each event: `start` requires a free slot under the
`maxConcurrent` bound (the `while` guard of `tryStartTasks`); completion and
failure events require the task to be in flight; a stale completion concerns
an id that belongs to no current task and is not in flight. -/
@[reducible]
def enabled (mc : Nat) : EEvent → ExecState → Prop
  | .enq _, _ => True
  | .start, s => s.inflight.length < mc
  | .completeOk id _, s => id ∈ s.inflight
  | .failSynth id _, s => id ∈ s.inflight
  | .failEmpty id, s => id ∈ s.inflight
  | .stopClear, _ => True
  | .staleComplete id _, s => id ∉ s.inflight ∧ ∀ t ∈ s.q.tasks, t.id ≠ id

/-- Combined states reachable from the initial state through events drawn
from `allow`, each taken only when enabled. -/
inductive EReach (mc : Nat) (allow : EEvent → Prop) : ExecState → Prop
  | init : EReach mc allow initExec
  | step {s : ExecState} (ev : EEvent) : EReach mc allow s → allow ev →
      enabled mc ev s → EReach mc allow (applyEvent ev s)

/-- Traces in which every synthesis completes successfully: no failures, no
empty-text errors, no cancellation. -/
@[reducible]
def successOnly : EEvent → Prop
  | .enq _ => True
  | .start => True
  | .completeOk _ _ => True
  | _ => False

/-- All events. -/
@[reducible]
def anyEvent : EEvent → Prop := fun _ => True

/-- Tasks well-indexed from `n`: the i-th task of the list has both id and
order `n + i`.  Reachable queue states satisfy `wellIndexed 0 tasks` (ids are
issued from the `nextOrder` counter, orders likewise, and the whole list is
only ever cleared atomically). -/
def wellIndexed : Nat → List TTSTask → Prop
  | _, [] => True
  | n, t :: ts => t.id = n ∧ t.order = n ∧ wellIndexed (n + 1) ts

/-- The ids of the tasks currently in `processing` state. -/
def processingIds (tasks : List TTSTask) : List Nat :=
  (tasks.filter fun t => t.status == .processing).map fun t => t.id

/-- The payload handed to `onAudio` for a task. -/
def payloadOf (t : TTSTask) : List Nat := t.audioData.getD []

/-- Base invariant of the combined transition system: tasks are well-indexed,
`nextOrder` is the list length, the in-flight id set is (a permutation of)
the ids of the `processing` tasks, and it respects the concurrency bound. -/
structure ExecInv (mc : Nat) (s : ExecState) : Prop where
  wi : wellIndexed 0 s.q.tasks
  nord : s.q.nextOrder = s.q.tasks.length
  perm : (processingIds s.q.tasks).Perm s.inflight
  bound : s.inflight.length ≤ mc

/-- Strengthened invariant for success-only traces: additionally the play
cursor never exceeds the task count, everything strictly before the cursor is
completed, the emission log is exactly the payloads of the tasks before the
cursor in order, completed tasks carry audio, and no playable task is left
pending emission (the drain loop runs to exhaustion after every mutation). -/
structure OkInv (mc : Nat) (s : ExecState) extends ExecInv mc s : Prop where
  cursor_le : s.q.nextPlayOrder ≤ s.q.tasks.length
  prefix_completed : ∀ t ∈ s.q.tasks.take s.q.nextPlayOrder, t.status = .completed
  played_eq : s.played = (s.q.tasks.take s.q.nextPlayOrder).map payloadOf
  completed_audio : ∀ t ∈ s.q.tasks, t.status = .completed → t.audioData.isSome
  no_playable : getNextPlayableTask s.q = none

/-! ### Concrete witness and failing traces -/

/-- Witness trace for C4: three sentences enqueued, two claimed under
`maxConcurrent = 2`. -/
def c4State : ExecState :=
  applyEvent .start (applyEvent .start
    (applyEvent (.enq "three") (applyEvent (.enq "two")
      (applyEvent (.enq "one") initExec))))

/-- Witness trace for C1: one sentence enqueued, claimed and completed with
payload `[7]`. -/
def c1State : ExecState :=
  applyEvent (.completeOk 0 [7])
    (applyEvent .start (applyEvent (.enq "hello there") initExec))

/-- Failing trace for C2: two sentences enqueued and both claimed under
`maxConcurrent = 2`; task 1's synthesis rejects while task 0 is still in
flight.  The failure path calls `markAsPlayed(task1)`, which increments
`nextPlayOrder` unconditionally. -/
def c2State : ExecState :=
  applyEvent (.failSynth 1 "network error")
    (applyEvent .start (applyEvent .start
      (applyEvent (.enq "Sentence number two.")
        (applyEvent (.enq "Sentence number one.") initExec))))

/-- Failing trace for C3: task 0's text `"# a"` cleans to the empty string
(`cleanMarkdown` strips the heading line), so `processTask` marks it `error`
and returns early without advancing the cursor; task 1 then completes.  The
cursor never moves past the failed slot. -/
def c3State : ExecState :=
  applyEvent (.completeOk 1 [42])
    (applyEvent .start
      (applyEvent (.failEmpty 0)
        (applyEvent .start
          (applyEvent (.enq "Hello, nice to meet you.")
            (applyEvent (.enq "# a") initExec)))))

/-! ### C6: the concrete segmentation example -/

/-- Claim C6: `extractSentences("你好。我是AI。正在", 8)` merges the short piece
forward, yielding the single sentence `"你好。我是AI。"` with remainder
`"正在"`, and the flush `processRemainingText("正在")` yields `["正在"]`. -/
theorem extract_example_c6 :
    extractSentences "你好。我是AI。正在".data 8 =
      (["你好。我是AI。".data], "正在".data) ∧
    processRemainingText "正在".data 150 = ["正在".data] := by
  constructor <;> decide

/-! ### C8: shape of the flushed chunks -/

theorem jsTrimEnd_eq_rdropWhile (l : List Char) :
    jsTrimEnd l = List.rdropWhile jsWhitespace l := rfl

theorem jsTrim_eq (l : List Char) :
    jsTrim l = List.rdropWhile jsWhitespace (l.dropWhile jsWhitespace) := rfl

/-- Trimming is idempotent. -/
theorem jsTrim_idem (l : List Char) : jsTrim (jsTrim l) = jsTrim l := by
  rw [jsTrim_eq, jsTrim_eq l]
  have h1 : (List.rdropWhile jsWhitespace (l.dropWhile jsWhitespace)).dropWhile
      jsWhitespace = List.rdropWhile jsWhitespace (l.dropWhile jsWhitespace) := by
    cases hA : List.rdropWhile jsWhitespace (l.dropWhile jsWhitespace) with
    | nil => simp
    | cons c t =>
      obtain ⟨u, hu⟩ :=
        List.rdropWhile_prefix jsWhitespace (l.dropWhile jsWhitespace)
      rw [hA] at hu
      have hne : l.dropWhile jsWhitespace ≠ [] := by
        rw [← hu]; simp
      have hpc : ¬jsWhitespace c = true := by
        have hhead := List.head_dropWhile_not jsWhitespace l hne
        have hc : (l.dropWhile jsWhitespace).head hne = c := by
          have h9 : (l.dropWhile jsWhitespace).head? = some c := by
            rw [← hu]; rfl
          rw [List.head?_eq_head hne] at h9
          exact Option.some.inj h9
        rw [hc] at hhead
        simp [hhead]
      rw [List.dropWhile_cons, if_neg hpc]
  rw [h1, List.rdropWhile_idempotent]

/-- Trimming never lengthens. -/
theorem jsTrim_length_le (l : List Char) : (jsTrim l).length ≤ l.length := by
  rw [jsTrim_eq]
  calc (List.rdropWhile jsWhitespace (l.dropWhile jsWhitespace)).length
      ≤ (l.dropWhile jsWhitespace).length :=
        (List.rdropWhile_prefix _ _).length_le
    _ ≤ l.length := (List.dropWhile_suffix _).length_le

/-- Every chunk produced by the hard-split loop is trimmed, non-empty and of
length at most `maxLength`. -/
theorem forceChunks_mem (maxLength fuel : Nat) (l : List Char) :
    ∀ c ∈ forceChunks maxLength fuel l,
      c ≠ [] ∧ jsTrim c = c ∧ c.length ≤ maxLength := by
  induction fuel generalizing l with
  | zero => intro c hc; simp [forceChunks] at hc
  | succ n ih =>
    intro c hc
    cases l with
    | nil => simp [forceChunks] at hc
    | cons x xs =>
      simp only [forceChunks] at hc
      by_cases hch : jsTrim ((x :: xs).take maxLength) = []
      · rw [if_pos hch] at hc
        exact ih _ c hc
      · rw [if_neg hch] at hc
        rcases List.mem_cons.mp hc with rfl | hmem
        · refine ⟨hch, jsTrim_idem _, ?_⟩
          calc (jsTrim ((x :: xs).take maxLength)).length
              ≤ ((x :: xs).take maxLength).length := jsTrim_length_le _
            _ ≤ maxLength := List.length_take_le _ _
        · exact ih _ c hmem

/-- Claim C8 (amended): every string returned by `processRemainingText` is
non-empty, already trimmed (hence non-empty after trimming) and of length at
most `maxLength`.  (Punctuation-only results are only dropped by the
whole-remainder check, not by the hard-split loop — see the counterexample.) -/
theorem flush_chunk_shape_c8 (remaining : List Char) (maxLength : Nat)
    (_hpos : 0 < maxLength) :
    ∀ c ∈ processRemainingText remaining maxLength,
      c ≠ [] ∧ jsTrim c = c ∧ c.length ≤ maxLength := by
  intro c hc
  simp only [processRemainingText] at hc
  by_cases h1 : jsTrim remaining = [] || isPunctuationOnly (jsTrim remaining)
  · rw [if_pos h1] at hc
    simp at hc
  · rw [if_neg h1] at hc
    by_cases h2 : maxLength < (jsTrim remaining).length
    · rw [if_pos h2] at hc
      simp only [forceSplitText, jsTrim_idem] at hc
      have hne : ¬(jsTrim remaining = []) := by
        intro h; rw [h] at h2; simp at h2
      rw [if_neg hne, if_neg (by omega)] at hc
      exact forceChunks_mem maxLength _ _ c hc
    · rw [if_neg h2] at hc
      rcases List.mem_singleton.mp hc with rfl
      refine ⟨?_, jsTrim_idem _, by omega⟩
      intro h
      rw [h] at h1
      simp [isPunctuationOnly] at h1

/-- Witness for C8: the amended theorem applied to the concrete flush
`processRemainingText("a,,,", 1)` and its chunk `","`. -/
theorem flush_chunk_shape_c8_witness :
    ",".data ≠ [] ∧ jsTrim ",".data = ",".data ∧ (",".data).length ≤ 1 :=
  flush_chunk_shape_c8 "a,,,".data 1 (by decide) ",".data (by decide)

/-- Counterexample to C8 as stated: the hard-split loop of `forceSplitText`
does not drop punctuation-only chunks — flushing `"a,,,"` with `maxLength = 1`
returns the punctuation-only chunk `","`. -/
theorem flush_returns_punctuation_chunk_c8 :
    ",".data ∈ processRemainingText "a,,,".data 1 ∧
    isPunctuationOnly ",".data = true := by
  exact ⟨by decide, by decide⟩

/-! ### C7: one-shot versus character-by-character segmentation -/

/-- A whitespace character is never sentence-ending punctuation. -/
theorem ws_not_ender (c : Char) (h : jsWhitespace c = true) :
    isSentenceEnder c = false := by
  cases he : isSentenceEnder c
  · rfl
  · exfalso
    simp only [isSentenceEnder, Bool.or_eq_true, decide_eq_true_eq] at he
    rcases he with (((((rfl | rfl) | rfl) | rfl) | rfl) | rfl) | rfl <;>
      exact absurd h (by decide)

/-- A fully trimmed-away string is all whitespace. -/
theorem all_ws_of_jsTrim_nil (cs : List Char) (h : jsTrim cs = []) :
    ∀ c ∈ cs, jsWhitespace c = true := by
  intro c hc
  have hdrop : ∀ x ∈ cs.dropWhile jsWhitespace, jsWhitespace x = true := by
    have := List.rdropWhile_eq_nil_iff.mp h
    exact this
  have hsplit := List.takeWhile_append_dropWhile (p := jsWhitespace) (l := cs)
  rw [← hsplit] at hc
  rcases List.mem_append.mp hc with htake | hdrop2
  · exact List.mem_takeWhile_imp htake
  · exact hdrop c hdrop2

/-- The character fold leaves an all-whitespace input entirely in the buffer. -/
theorem procChars_all_ws (mL : Nat) (cs : List Char)
    (h : ∀ c ∈ cs, jsWhitespace c = true) :
    ∀ acc buf, procChars mL acc buf cs = (acc, buf ++ cs) := by
  induction cs with
  | nil => intro acc buf; simp [procChars]
  | cons c cs ih =>
    intro acc buf
    have hender : isSentenceEnder c = false :=
      ws_not_ender c (h c (List.mem_cons_self c cs))
    simp only [procChars, stepChar, hender, Bool.false_eq_true, if_neg,
      List.append_nil]
    rw [ih (fun x hx => h x (List.mem_cons_of_mem c hx))]
    simp

/-- The non-empty split always starts with an ender-free part. -/
theorem splitKeepEnders_first (cs : List Char) :
    ∃ p ps, splitKeepEnders cs = p :: ps ∧ containsEnder p = false := by
  induction cs with
  | nil => exact ⟨[], [], rfl, rfl⟩
  | cons c cs ih =>
    cases h : isSentenceEnder c with
    | true =>
      refine ⟨[], [c] :: splitKeepEnders cs, by simp [splitKeepEnders, h], rfl⟩
    | false =>
      obtain ⟨p, ps, hps, hp⟩ := ih
      refine ⟨c :: p, ps, by simp [splitKeepEnders, h, hps], ?_⟩
      simp only [containsEnder, List.any_cons, h, Bool.false_or]
      simpa [containsEnder] using hp

/-- The part loop of `extractSentences` over the split equals the character
fold. -/
theorem extractLoop_eq_procChars (mL : Nat) (cs : List Char) :
    ∀ acc buf, extractLoop mL (splitKeepEnders cs) acc buf =
      procChars mL acc buf cs := by
  induction cs with
  | nil =>
    intro acc buf
    simp [splitKeepEnders, extractLoop, containsEnder, procChars]
  | cons c cs ih =>
    intro acc buf
    cases h : isSentenceEnder c with
    | true =>
      have hsplit : splitKeepEnders (c :: cs) = [] :: [c] :: splitKeepEnders cs := by
        simp [splitKeepEnders, h]
      have hc1 : containsEnder [c] = true := by
        simp [containsEnder, h]
      rw [hsplit, extractLoop]
      rw [if_neg (by simp [containsEnder])]
      rw [List.append_nil, extractLoop, if_pos (by simp [hc1])]
      simp only [procChars, stepChar, h, if_pos]
      split_ifs with h1 h2
      · rw [ih]; simp
      · rw [ih]
      · rw [ih]; simp
    | false =>
      obtain ⟨p, ps, hps, hp⟩ := splitKeepEnders_first cs
      have hsplit : splitKeepEnders (c :: cs) = (c :: p) :: ps := by
        simp [splitKeepEnders, h, hps]
      have hcp : containsEnder (c :: p) = false := by
        simp only [containsEnder, List.any_cons, h, Bool.false_or]
        simpa [containsEnder] using hp
      rw [hsplit, extractLoop, if_neg (by simp [hcp])]
      have hstep : extractLoop mL (p :: ps) acc (buf ++ [c]) =
          extractLoop mL ps acc ((buf ++ [c]) ++ p) := by
        rw [extractLoop, if_neg (by simp [hp])]
      have hgoal : buf ++ c :: p = (buf ++ [c]) ++ p := by simp
      rw [hgoal, ← hstep, ← hps, ih]
      simp only [procChars, stepChar, h, Bool.false_eq_true, if_false,
        List.append_nil]

/-- `extractSentences` is the character fold started from the empty state (the
early whitespace-only return agrees with the fold, which would buffer the
whole input without emitting). -/
theorem extractSentences_eq_procChars (cs : List Char) (mL : Nat) :
    extractSentences cs mL = procChars mL [] [] cs := by
  unfold extractSentences
  split_ifs with h
  · rcases h with rfl | h
    · rfl
    · rw [procChars_all_ws mL cs (all_ws_of_jsTrim_nil cs h)]
      simp
  · exact extractLoop_eq_procChars mL cs [] []

/-- Processing a concatenation is processing the pieces in sequence. -/
theorem procChars_append (mL : Nat) (xs ys : List Char) :
    ∀ acc buf, procChars mL acc buf (xs ++ ys) =
      procChars mL (procChars mL acc buf xs).1 (procChars mL acc buf xs).2 ys := by
  induction xs with
  | nil => intro acc buf; rfl
  | cons x xs ih =>
    intro acc buf
    simp only [List.cons_append, procChars]
    exact ih _ _

/-- Each segmentation step either keeps the (extended) buffer without emitting
or clears the buffer. -/
theorem stepChar_keep_or_clear (mL : Nat) (buf : List Char) (c : Char) :
    stepChar mL buf c = ([], buf ++ [c]) ∨ (stepChar mL buf c).2 = [] := by
  simp only [stepChar]
  split_ifs <;> simp

/-- Re-feeding a residual buffer emits nothing and reproduces the buffer. -/
theorem replay_snoc (mL : Nat) (buf : List Char) (c : Char)
    (h : procChars mL [] [] buf = ([], buf))
    (hk : stepChar mL buf c = ([], buf ++ [c])) :
    procChars mL [] [] (buf ++ [c]) = ([], buf ++ [c]) := by
  rw [procChars_append mL buf [c] [] [], h]
  simp [procChars, hk]

/-- The incremental `feedChars` protocol agrees with the character fold from
any replayable state. -/
theorem feedChars_eq_procChars (mL : Nat) (cs : List Char) :
    ∀ acc buf, procChars mL [] [] buf = ([], buf) →
      feedChars mL (acc, buf) cs = procChars mL acc buf cs := by
  induction cs with
  | nil => intro acc buf _; rfl
  | cons c cs ih =>
    intro acc buf h
    have hr : extractSentences (buf ++ [c]) mL =
        ((stepChar mL buf c).1, (stepChar mL buf c).2) := by
      rw [extractSentences_eq_procChars, procChars_append mL buf [c] [] [], h]
      simp [procChars]
    have hreplay : procChars mL [] [] (stepChar mL buf c).2 =
        ([], (stepChar mL buf c).2) := by
      rcases stepChar_keep_or_clear mL buf c with hk | hk
      · rw [hk]
        exact replay_snoc mL buf c h hk
      · rw [hk]; rfl
    show feedChars mL
        (acc ++ (extractSentences (buf ++ [c]) mL).1,
          (extractSentences (buf ++ [c]) mL).2) cs = _
    rw [hr]
    rw [ih _ _ hreplay]
    rfl

/-! ### Well-indexing and task-list lemmas -/

/-- Members of a well-indexed list: id equals order, and order lies in the
index range. -/
theorem wellIndexed_mem (l : List TTSTask) :
    ∀ n, wellIndexed n l → ∀ t ∈ l,
      t.id = t.order ∧ n ≤ t.order ∧ t.order < n + l.length := by
  induction l with
  | nil => intro n _ t ht; cases ht
  | cons a ts ih =>
    intro n h t ht
    obtain ⟨hid, hord, hts⟩ := h
    rcases List.mem_cons.mp ht with rfl | hmem
    · refine ⟨by rw [hid, hord], by rw [hord], ?_⟩
      simp only [List.length_cons]
      omega
    · obtain ⟨h1, h2, h3⟩ := ih (n + 1) hts t hmem
      refine ⟨h1, by omega, ?_⟩
      simp only [List.length_cons]
      omega

/-- Indexed access into a well-indexed list. -/
theorem wellIndexed_get (l : List TTSTask) :
    ∀ n, wellIndexed n l → ∀ i (h : i < l.length),
      (l.get ⟨i, h⟩).id = n + i ∧ (l.get ⟨i, h⟩).order = n + i := by
  induction l with
  | nil => intro n _ i h; exact absurd h (by simp)
  | cons a ts ih =>
    intro n hw i h
    obtain ⟨hid, hord, hts⟩ := hw
    cases i with
    | zero => exact ⟨hid, hord⟩
    | succ j =>
      have hj : j < ts.length := by simpa using h
      obtain ⟨h1, h2⟩ := ih (n + 1) hts j hj
      constructor
      · simp only [List.get_cons_succ]
        rw [h1]; omega
      · simp only [List.get_cons_succ]
        rw [h2]; omega

/-- In a well-indexed list, a member sits at the index given by its order. -/
theorem wellIndexed_mem_get (l : List TTSTask) (hw : wellIndexed 0 l)
    (t : TTSTask) (ht : t ∈ l) :
    ∃ h : t.order < l.length, l.get ⟨t.order, h⟩ = t := by
  obtain ⟨i, hget⟩ := List.mem_iff_get.mp ht
  obtain ⟨_, hord⟩ := wellIndexed_get l 0 hw i.1 i.2
  rw [hget] at hord
  have hlt : t.order < l.length := by
    have h2 := i.2
    rw [hord]; omega
  refine ⟨hlt, ?_⟩
  have : (⟨t.order, hlt⟩ : Fin l.length) = i := by
    apply Fin.ext
    simp [hord]
  rw [this, hget]

/-- Decomposition of a well-indexed list at a member: no other element shares
its id. -/
theorem wellIndexed_decomp (l : List TTSTask) :
    ∀ n, wellIndexed n l → ∀ t ∈ l,
      ∃ l₁ l₂, l = l₁ ++ t :: l₂ ∧ (∀ u ∈ l₁, u.id ≠ t.id) ∧
        ∀ u ∈ l₂, u.id ≠ t.id := by
  induction l with
  | nil => intro n _ t ht; cases ht
  | cons a ts ih =>
    intro n h t ht
    obtain ⟨hid, hord, hts⟩ := h
    rcases List.mem_cons.mp ht with rfl | hmem
    · refine ⟨[], ts, rfl, ?_, ?_⟩
      · intro u hu; cases hu
      · intro u hu hcontra
        obtain ⟨huid, hule, _⟩ := wellIndexed_mem ts (n + 1) hts u hu
        omega
    · obtain ⟨l₁, l₂, hdec, hl₁, hl₂⟩ := ih (n + 1) hts t hmem
      obtain ⟨htid, htle, _⟩ := wellIndexed_mem ts (n + 1) hts t hmem
      refine ⟨a :: l₁, l₂, by simp [hdec], ?_, hl₂⟩
      intro u hu
      rcases List.mem_cons.mp hu with rfl | hu₁
      · omega
      · exact hl₁ u hu₁

/-- `updTasks` preserves list length. -/
theorem updTasks_length (id : Nat) (st : TTSTaskStatus)
    (a : Option (List Nat)) (e : Option String) (l : List TTSTask) :
    (updTasks id st a e l).length = l.length := by
  simp [updTasks]

/-- `updTasks` preserves well-indexing (ids and orders are untouched). -/
theorem wellIndexed_updTasks (id : Nat) (st : TTSTaskStatus)
    (a : Option (List Nat)) (e : Option String) (l : List TTSTask) :
    ∀ n, wellIndexed n l → wellIndexed n (updTasks id st a e l) := by
  induction l with
  | nil => intro n h; exact h
  | cons u ts ih =>
    intro n h
    obtain ⟨h1, h2, h3⟩ := h
    show wellIndexed n (_ :: _)
    refine ⟨?_, ?_, ih (n + 1) h3⟩
    · simp only [updTask]
      by_cases hid : u.id = id
      · rw [if_pos hid]; exact h1
      · rw [if_neg hid]; exact h1
    · simp only [updTask]
      by_cases hid : u.id = id
      · rw [if_pos hid]; exact h2
      · rw [if_neg hid]; exact h2

/-- `updTasks` with an id matching no task is the identity. -/
theorem updTasks_id_not_mem (id : Nat) (st : TTSTaskStatus)
    (a : Option (List Nat)) (e : Option String) (l : List TTSTask)
    (h : ∀ u ∈ l, u.id ≠ id) :
    updTasks id st a e l = l := by
  induction l with
  | nil => rfl
  | cons u ts ih =>
    simp only [updTasks, List.map_cons, updTask]
    rw [if_neg (h u (List.mem_cons_self u ts))]
    have hts := ih fun v hv => h v (List.mem_cons_of_mem u hv)
    simp only [updTasks] at hts
    rw [hts]

/-- `updTasks` on a list decomposed at the unique matching task rewrites
exactly that task. -/
theorem updTasks_decomp (id : Nat) (st : TTSTaskStatus)
    (a : Option (List Nat)) (e : Option String) (l₁ l₂ : List TTSTask)
    (t : TTSTask) (h1 : ∀ u ∈ l₁, u.id ≠ id) (ht : t.id = id)
    (h2 : ∀ u ∈ l₂, u.id ≠ id) :
    updTasks id st a e (l₁ ++ t :: l₂) =
      l₁ ++ { t with status := st, audioData := a, error := e } :: l₂ := by
  simp only [updTasks, List.map_append, List.map_cons, updTask]
  rw [if_pos ht]
  have e₁ := updTasks_id_not_mem id st a e l₁ h1
  have e₂ := updTasks_id_not_mem id st a e l₂ h2
  simp only [updTasks] at e₁ e₂
  rw [e₁, e₂]

/-- `updTasks` leaves any prefix free of the target id unchanged. -/
theorem updTasks_take (id : Nat) (st : TTSTaskStatus)
    (a : Option (List Nat)) (e : Option String) (l : List TTSTask) (k : Nat)
    (h : ∀ u ∈ l.take k, u.id ≠ id) :
    (updTasks id st a e l).take k = l.take k := by
  have := updTasks_id_not_mem id st a e (l.take k) h
  simp only [updTasks] at this ⊢
  rw [← List.map_take, this]

/-- Membership in an updated task list. -/
theorem mem_updTasks (id : Nat) (st : TTSTaskStatus)
    (a : Option (List Nat)) (e : Option String) (l : List TTSTask)
    (u' : TTSTask) (h : u' ∈ updTasks id st a e l) :
    (∃ u ∈ l, u.id = id ∧
        u' = { u with status := st, audioData := a, error := e }) ∨
      (u' ∈ l ∧ u'.id ≠ id) := by
  simp only [updTasks, List.mem_map] at h
  obtain ⟨u, hu, hfu⟩ := h
  simp only [updTask] at hfu
  by_cases hid : u.id = id
  · rw [if_pos hid] at hfu
    exact Or.inl ⟨u, hu, hid, hfu.symm⟩
  · rw [if_neg hid] at hfu
    exact Or.inr ⟨hfu ▸ hu, hfu ▸ hid⟩

/-- Membership through stable insertion. -/
theorem mem_insertByOrder (t x : TTSTask) (l : List TTSTask) :
    x ∈ insertByOrder t l ↔ x = t ∨ x ∈ l := by
  induction l with
  | nil => simp [insertByOrder]
  | cons u us ih =>
    simp only [insertByOrder]
    by_cases h : t.order < u.order
    · rw [if_pos h]
      simp [List.mem_cons]
    · rw [if_neg h]
      simp only [List.mem_cons, ih]
      tauto

/-- Membership through the stable sort. -/
theorem mem_sortByOrder (x : TTSTask) (l : List TTSTask) :
    x ∈ sortByOrder l ↔ x ∈ l := by
  induction l with
  | nil => simp [sortByOrder]
  | cons u us ih =>
    simp only [sortByOrder, mem_insertByOrder, ih, List.mem_cons]

/-- A claimed pending task is a pending member of the queue. -/
theorem getNextPendingTask_spec (s : TTSQueueState) (t : TTSTask)
    (h : getNextPendingTask s = some t) :
    t ∈ s.tasks ∧ t.status = .pending := by
  unfold getNextPendingTask at h
  have hmem : t ∈ sortByOrder (s.tasks.filter fun u => u.status == .pending) := by
    cases hs : sortByOrder (s.tasks.filter fun u => u.status == .pending) with
    | nil => rw [hs] at h; cases h
    | cons a as =>
      rw [hs] at h
      have ha : a = t := by simpa using h
      rw [← ha]
      exact List.mem_cons_self a as
  rw [mem_sortByOrder] at hmem
  refine ⟨List.mem_of_mem_filter hmem, ?_⟩
  have := List.of_mem_filter hmem
  simpa using this

/-- A playable task is a completed member with audio sitting at the cursor. -/
theorem getNextPlayableTask_spec (s : TTSQueueState) (t : TTSTask)
    (h : getNextPlayableTask s = some t) :
    t ∈ s.tasks ∧ t.order = s.nextPlayOrder ∧ t.status = .completed ∧
      t.audioData.isSome = true := by
  unfold getNextPlayableTask at h
  have hmem := List.mem_of_find?_eq_some h
  have hp := List.find?_some h
  simp only [Bool.and_eq_true, beq_iff_eq] at hp
  exact ⟨hmem, hp.1.1, hp.1.2, hp.2⟩

/-- When the cursor has run off the end of a well-indexed list, nothing is
playable. -/
theorem no_playable_of_len_le (s : TTSQueueState)
    (hw : wellIndexed 0 s.tasks) (h : s.tasks.length ≤ s.nextPlayOrder) :
    getNextPlayableTask s = none := by
  unfold getNextPlayableTask
  rw [List.find?_eq_none]
  intro t ht hcontra
  obtain ⟨_, _, hlt⟩ := wellIndexed_mem s.tasks 0 hw t ht
  simp only [Bool.and_eq_true, beq_iff_eq] at hcontra
  omega

/-- `markAsPlayed` of an existing id advances the cursor by one. -/
theorem markAsPlayed_of_mem (id : Nat) (s : TTSQueueState)
    (h : ∃ u ∈ s.tasks, u.id = id) :
    markAsPlayed id s = { s with nextPlayOrder := s.nextPlayOrder + 1 } := by
  unfold markAsPlayed
  obtain ⟨u, hu, hid⟩ := h
  cases hfind : s.tasks.find? (fun t => t.id == id) with
  | none =>
    exfalso
    have := List.find?_eq_none.mp hfind u hu
    simp [hid] at this
  | some v => rfl

/-- `markAsPlayed` never touches `nextOrder`. -/
theorem markAsPlayed_nextOrder (id : Nat) (s : TTSQueueState) :
    (markAsPlayed id s).nextOrder = s.nextOrder := by
  unfold markAsPlayed
  cases s.tasks.find? fun t => t.id == id <;> rfl

/-- `markAsPlayed` never touches the task list. -/
theorem markAsPlayed_tasks (id : Nat) (s : TTSQueueState) :
    (markAsPlayed id s).tasks = s.tasks := by
  unfold markAsPlayed
  cases s.tasks.find? fun t => t.id == id <;> rfl

/-- `markAsPlayed` never touches `processingCount`. -/
theorem markAsPlayed_processingCount (id : Nat) (s : TTSQueueState) :
    (markAsPlayed id s).processingCount = s.processingCount := by
  unfold markAsPlayed
  cases s.tasks.find? fun t => t.id == id <;> rfl

/-- `markAsPlayed` never touches `isAllCompleted`. -/
theorem markAsPlayed_isAllCompleted (id : Nat) (s : TTSQueueState) :
    (markAsPlayed id s).isAllCompleted = s.isAllCompleted := by
  unfold markAsPlayed
  cases s.tasks.find? fun t => t.id == id <;> rfl

/-! ### Processing-id bookkeeping -/

theorem processingIds_append (l₁ l₂ : List TTSTask) :
    processingIds (l₁ ++ l₂) = processingIds l₁ ++ processingIds l₂ := by
  simp [processingIds, List.filter_append]

theorem processingIds_cons_of_processing (t : TTSTask) (l : List TTSTask)
    (h : t.status = .processing) :
    processingIds (t :: l) = t.id :: processingIds l := by
  simp [processingIds, List.filter_cons, h]

theorem processingIds_cons_of_not (t : TTSTask) (l : List TTSTask)
    (h : t.status ≠ .processing) :
    processingIds (t :: l) = processingIds l := by
  simp [processingIds, List.filter_cons, h]

theorem mem_processingIds (l : List TTSTask) (id : Nat)
    (h : id ∈ processingIds l) :
    ∃ u ∈ l, u.status = .processing ∧ u.id = id := by
  simp only [processingIds, List.mem_map] at h
  obtain ⟨u, hu, hid⟩ := h
  exact ⟨u, List.mem_of_mem_filter hu,
    by simpa using List.of_mem_filter hu, hid⟩

theorem not_mem_processingIds (l : List TTSTask) (id : Nat)
    (h : ∀ u ∈ l, u.id ≠ id) :
    id ∉ processingIds l := by
  intro hmem
  obtain ⟨u, hu, _, hid⟩ := mem_processingIds l id hmem
  exact h u hu hid

/-- Appending well-indexed blocks. -/
theorem wellIndexed_append (l₁ l₂ : List TTSTask) :
    ∀ n, wellIndexed n l₁ → wellIndexed (n + l₁.length) l₂ →
      wellIndexed n (l₁ ++ l₂) := by
  induction l₁ with
  | nil => intro n _ h; simpa using h
  | cons a ts ih =>
    intro n h1 h2
    obtain ⟨ha, hb, hc⟩ := h1
    refine ⟨ha, hb, ih (n + 1) hc ?_⟩
    have harith : n + 1 + ts.length = n + (a :: ts).length := by
      simp only [List.length_cons]; omega
    rw [harith]
    exact h2

/-- The drain loop only moves the play cursor and the log: tasks, `nextOrder`,
`processingCount` and `isAllCompleted` are untouched. -/
theorem drainPlay_fields (fuel : Nat) :
    ∀ q log, (drainPlay fuel q log).1.tasks = q.tasks ∧
      (drainPlay fuel q log).1.nextOrder = q.nextOrder ∧
      (drainPlay fuel q log).1.processingCount = q.processingCount ∧
      (drainPlay fuel q log).1.isAllCompleted = q.isAllCompleted := by
  induction fuel with
  | zero => intro q log; exact ⟨rfl, rfl, rfl, rfl⟩
  | succ n ih =>
    intro q log
    simp only [drainPlay]
    cases hp : getNextPlayableTask q with
    | none => exact ⟨rfl, rfl, rfl, rfl⟩
    | some t =>
      obtain ⟨h1, h2, h3, h4⟩ := ih (markAsPlayed t.id q) (log ++ [t.audioData.getD []])
      rw [markAsPlayed_tasks] at h1
      rw [markAsPlayed_nextOrder] at h2
      rw [markAsPlayed_processingCount] at h3
      rw [markAsPlayed_isAllCompleted] at h4
      exact ⟨h1, h2, h3, h4⟩

/-! ### Preservation of the base executor invariant -/

theorem execInv_step (mc : Nat) (ev : EEvent) (s : ExecState)
    (hinv : ExecInv mc s) (hen : enabled mc ev s) :
    ExecInv mc (applyEvent ev s) := by
  obtain ⟨hwi, hnord, hperm, hbound⟩ := hinv
  cases ev with
  | enq text =>
    dsimp only [applyEvent, addTask]
    refine ⟨?_, ?_, ?_, hbound⟩
    · refine wellIndexed_append _ _ 0 hwi ?_
      refine ⟨?_, ?_, trivial⟩ <;> (dsimp only [freshTask]; omega)
    · dsimp only
      rw [List.length_append, List.length_singleton, hnord]
    · dsimp only
      rw [processingIds_append, processingIds_cons_of_not _ _ (by intro hc; cases hc)]
      simpa [processingIds] using hperm
  | start =>
    dsimp only [applyEvent]
    cases hstart : getNextPendingTask s.q with
    | none => exact ⟨hwi, hnord, hperm, hbound⟩
    | some t =>
      obtain ⟨hmem, hpend⟩ := getNextPendingTask_spec s.q t hstart
      obtain ⟨l₁, l₂, hdec, hl₁, hl₂⟩ := wellIndexed_decomp s.q.tasks 0 hwi t hmem
      have hupd : updTasks t.id .processing none none s.q.tasks =
          l₁ ++ { t with status := .processing, audioData := none, error := none } :: l₂ := by
        rw [hdec]
        exact updTasks_decomp t.id .processing none none l₁ l₂ t hl₁ rfl hl₂
      refine ⟨?_, ?_, ?_, ?_⟩
      · exact wellIndexed_updTasks t.id .processing none none s.q.tasks 0 hwi
      · show s.q.nextOrder = (updTasks t.id .processing none none s.q.tasks).length
        rw [updTasks_length]
        exact hnord
      · show (processingIds (updTasks t.id .processing none none s.q.tasks)).Perm
          (t.id :: s.inflight)
        rw [hupd, processingIds_append, processingIds_cons_of_processing _ _ rfl]
        have hold : processingIds s.q.tasks = processingIds l₁ ++ processingIds l₂ := by
          rw [hdec, processingIds_append,
            processingIds_cons_of_not _ _ (by rw [hpend]; intro hc; cases hc)]
        refine List.Perm.trans List.perm_middle ?_
        rw [← hold]
        exact hperm.cons t.id
      · show (t.id :: s.inflight).length ≤ mc
        simp only [List.length_cons]
        exact hen
  | completeOk id payload =>
    have hid_mem : id ∈ processingIds s.q.tasks := hperm.mem_iff.mpr hen
    obtain ⟨u, hu, hproc, huid⟩ := mem_processingIds s.q.tasks id hid_mem
    obtain ⟨l₁, l₂, hdec, hl₁, hl₂⟩ := wellIndexed_decomp s.q.tasks 0 hwi u hu
    rw [huid] at hl₁ hl₂
    have hupd : updTasks id .completed (some payload) none s.q.tasks =
        l₁ ++ { u with status := .completed, audioData := some payload, error := none } :: l₂ := by
      rw [hdec]
      exact updTasks_decomp id .completed (some payload) none l₁ l₂ u hl₁ huid hl₂
    obtain ⟨hq1, hq2, _, _⟩ := drainPlay_fields
      (updateTaskStatus id .completed (some payload) none s.q).tasks.length
      (updateTaskStatus id .completed (some payload) none s.q) s.played
    dsimp only [applyEvent]
    refine ⟨?_, ?_, ?_, ?_⟩
    · rw [hq1]
      exact wellIndexed_updTasks id .completed (some payload) none s.q.tasks 0 hwi
    · rw [hq1, hq2]
      show s.q.nextOrder = (updTasks id .completed (some payload) none s.q.tasks).length
      rw [updTasks_length]
      exact hnord
    · rw [hq1]
      show (processingIds (updTasks id .completed (some payload) none s.q.tasks)).Perm
        (s.inflight.erase id)
      rw [hupd, processingIds_append, processingIds_cons_of_not _ _ (by intro hc; cases hc)]
      have hold : processingIds s.q.tasks =
          processingIds l₁ ++ id :: processingIds l₂ := by
        rw [hdec, processingIds_append, processingIds_cons_of_processing _ _ hproc, huid]
      have herase := hperm.erase id
      rw [hold, List.erase_append_right _ (not_mem_processingIds l₁ id hl₁),
        List.erase_cons_head] at herase
      exact herase
    · show (s.inflight.erase id).length ≤ mc
      exact le_trans (List.erase_sublist id s.inflight).length_le hbound
  | failSynth id err =>
    have hid_mem : id ∈ processingIds s.q.tasks := hperm.mem_iff.mpr hen
    obtain ⟨u, hu, hproc, huid⟩ := mem_processingIds s.q.tasks id hid_mem
    obtain ⟨l₁, l₂, hdec, hl₁, hl₂⟩ := wellIndexed_decomp s.q.tasks 0 hwi u hu
    rw [huid] at hl₁ hl₂
    have hupd : updTasks id .error none (some err) s.q.tasks =
        l₁ ++ { u with status := .error, audioData := none, error := some err } :: l₂ := by
      rw [hdec]
      exact updTasks_decomp id .error none (some err) l₁ l₂ u hl₁ huid hl₂
    obtain ⟨hq1, hq2, _, _⟩ := drainPlay_fields
      (markAsPlayed id (updateTaskStatus id .error none (some err) s.q)).tasks.length
      (markAsPlayed id (updateTaskStatus id .error none (some err) s.q)) s.played
    dsimp only [applyEvent]
    refine ⟨?_, ?_, ?_, ?_⟩
    · rw [hq1, markAsPlayed_tasks]
      exact wellIndexed_updTasks id .error none (some err) s.q.tasks 0 hwi
    · rw [hq1, hq2, markAsPlayed_tasks, markAsPlayed_nextOrder]
      show s.q.nextOrder = (updTasks id .error none (some err) s.q.tasks).length
      rw [updTasks_length]
      exact hnord
    · rw [hq1, markAsPlayed_tasks]
      show (processingIds (updTasks id .error none (some err) s.q.tasks)).Perm
        (s.inflight.erase id)
      rw [hupd, processingIds_append, processingIds_cons_of_not _ _ (by intro hc; cases hc)]
      have hold : processingIds s.q.tasks =
          processingIds l₁ ++ id :: processingIds l₂ := by
        rw [hdec, processingIds_append, processingIds_cons_of_processing _ _ hproc, huid]
      have herase := hperm.erase id
      rw [hold, List.erase_append_right _ (not_mem_processingIds l₁ id hl₁),
        List.erase_cons_head] at herase
      exact herase
    · show (s.inflight.erase id).length ≤ mc
      exact le_trans (List.erase_sublist id s.inflight).length_le hbound
  | failEmpty id =>
    have hid_mem : id ∈ processingIds s.q.tasks := hperm.mem_iff.mpr hen
    obtain ⟨u, hu, hproc, huid⟩ := mem_processingIds s.q.tasks id hid_mem
    obtain ⟨l₁, l₂, hdec, hl₁, hl₂⟩ := wellIndexed_decomp s.q.tasks 0 hwi u hu
    rw [huid] at hl₁ hl₂
    have hupd : updTasks id .error none (some emptyTextMsg) s.q.tasks =
        l₁ ++ { u with status := .error, audioData := none, error := some emptyTextMsg } :: l₂ := by
      rw [hdec]
      exact updTasks_decomp id .error none (some emptyTextMsg) l₁ l₂ u hl₁ huid hl₂
    dsimp only [applyEvent]
    refine ⟨?_, ?_, ?_, ?_⟩
    · exact wellIndexed_updTasks id .error none (some emptyTextMsg) s.q.tasks 0 hwi
    · show s.q.nextOrder = (updTasks id .error none (some emptyTextMsg) s.q.tasks).length
      rw [updTasks_length]
      exact hnord
    · show (processingIds (updTasks id .error none (some emptyTextMsg) s.q.tasks)).Perm
        (s.inflight.erase id)
      rw [hupd, processingIds_append, processingIds_cons_of_not _ _ (by intro hc; cases hc)]
      have hold : processingIds s.q.tasks =
          processingIds l₁ ++ id :: processingIds l₂ := by
        rw [hdec, processingIds_append, processingIds_cons_of_processing _ _ hproc, huid]
      have herase := hperm.erase id
      rw [hold, List.erase_append_right _ (not_mem_processingIds l₁ id hl₁),
        List.erase_cons_head] at herase
      exact herase
    · show (s.inflight.erase id).length ≤ mc
      exact le_trans (List.erase_sublist id s.inflight).length_le hbound
  | stopClear =>
    exact ⟨trivial, rfl, List.Perm.refl _, Nat.zero_le mc⟩
  | staleComplete id payload =>
    obtain ⟨_, hnone⟩ := hen
    have htasks : updTasks id .completed (some payload) none s.q.tasks = s.q.tasks :=
      updTasks_id_not_mem id .completed (some payload) none s.q.tasks hnone
    obtain ⟨hq1, hq2, _, _⟩ := drainPlay_fields
      (updateTaskStatus id .completed (some payload) none s.q).tasks.length
      (updateTaskStatus id .completed (some payload) none s.q) s.played
    dsimp only [applyEvent]
    refine ⟨?_, ?_, ?_, hbound⟩
    · rw [hq1]
      show wellIndexed 0 (updTasks id .completed (some payload) none s.q.tasks)
      rw [htasks]
      exact hwi
    · rw [hq1, hq2]
      show s.q.nextOrder = (updTasks id .completed (some payload) none s.q.tasks).length
      rw [htasks]
      exact hnord
    · rw [hq1]
      show (processingIds (updTasks id .completed (some payload) none s.q.tasks)).Perm
        s.inflight
      rw [htasks]
      exact hperm

/-- The base invariant holds in every reachable combined state. -/
theorem execInv_reach (mc : Nat) (allow : EEvent → Prop) (s : ExecState)
    (h : EReach mc allow s) : ExecInv mc s := by
  induction h with
  | init => exact ⟨trivial, rfl, List.Perm.refl _, Nat.zero_le mc⟩
  | step ev _ _ hen ih => exact execInv_step _ ev _ ih hen

/-! ### C4: the concurrency bound -/

/-- Claim C4: in every reachable combined state — for any event set, so in
particular with failures, cancellation and stale callbacks — at most
`maxConcurrent` tasks are simultaneously in the `processing` state. -/
theorem concurrency_bound_c4 (mc : Nat) (allow : EEvent → Prop) (s : ExecState)
    (h : EReach mc allow s) :
    (s.q.tasks.filter fun t => t.status == .processing).length ≤ mc := by
  have hinv := execInv_reach mc allow s h
  have hlen : (s.q.tasks.filter fun t => t.status == .processing).length =
      (processingIds s.q.tasks).length := by
    simp [processingIds]
  rw [hlen, hinv.perm.length_eq]
  exact hinv.bound

/-- Witness for C4: the concurrency bound at the concrete reachable state
`c4State`. -/
theorem concurrency_bound_c4_witness :
    (c4State.q.tasks.filter fun t => t.status == .processing).length ≤ 2 :=
  concurrency_bound_c4 2 anyEvent c4State
    (EReach.step .start
      (EReach.step .start
        (EReach.step (.enq "three")
          (EReach.step (.enq "two")
            (EReach.step (.enq "one") EReach.init trivial trivial)
            trivial trivial)
          trivial trivial)
        trivial (by decide))
      trivial (by decide))

/-! ### Order and prefix lemmas for the playback cursor -/

/-- A member of a well-indexed prefix has a small order. -/
theorem mem_take_order_lt (l : List TTSTask) (hw : wellIndexed 0 l) (k : Nat)
    (u : TTSTask) (hu : u ∈ l.take k) : u.id = u.order ∧ u.order < k := by
  have hmem : u ∈ l := List.mem_of_mem_take hu
  obtain ⟨hid, _, _⟩ := wellIndexed_mem l 0 hw u hmem
  refine ⟨hid, ?_⟩
  obtain ⟨i, hget⟩ := List.mem_iff_get.mp hu
  have h1 := i.2
  have h2 : (List.take k l).length ≤ k := List.length_take_le _ _
  have h3 : (List.take k l).length ≤ l.length := (List.take_sublist _ _).length_le
  have hil : i.1 < l.length := by omega
  have hgl : l.get ⟨i.1, hil⟩ = u := by
    rw [← hget]
    simp [List.get_eq_getElem, List.getElem_take]
  obtain ⟨_, hord⟩ := wellIndexed_get l 0 hw i.1 hil
  rw [hgl] at hord
  omega

/-- A non-completed member of a well-indexed list whose prefix up to `k` is
all completed must have order at least `k`. -/
theorem order_ge_of_not_completed (l : List TTSTask) (hw : wellIndexed 0 l)
    (k : Nat) (hpre : ∀ u ∈ l.take k, u.status = .completed)
    (t : TTSTask) (ht : t ∈ l) (hst : t.status ≠ .completed) : k ≤ t.order := by
  by_contra hcon
  push_neg at hcon
  obtain ⟨hlt, hget⟩ := wellIndexed_mem_get l hw t ht
  have hmem : t ∈ l.take k := by
    have hlen : t.order < (l.take k).length := by
      rw [List.length_take, lt_min_iff]
      exact ⟨hcon, hlt⟩
    have heq : (l.take k).get ⟨t.order, hlen⟩ = l.get ⟨t.order, hlt⟩ := by
      simp [List.get_eq_getElem, List.getElem_take]
    rw [← hget, ← heq]
    exact List.get_mem _ _ _
  exact hst (hpre t hmem)

/-! ### The drain loop of `tryPlayNext` -/

/-- Full specification of the drain loop: tasks are untouched, the cursor
only moves forward over completed tasks and never past the end, the emission
log stays exactly the payloads of the tasks before the cursor in order, and
with fuel at least `length - cursor` the loop runs until nothing is
playable. -/
theorem drainPlay_spec (fuel : Nat) :
    ∀ q log, wellIndexed 0 q.tasks →
      q.nextPlayOrder ≤ q.tasks.length →
      (∀ t ∈ q.tasks.take q.nextPlayOrder, t.status = .completed) →
      log = (q.tasks.take q.nextPlayOrder).map payloadOf →
      (drainPlay fuel q log).1.tasks = q.tasks ∧
      q.nextPlayOrder ≤ (drainPlay fuel q log).1.nextPlayOrder ∧
      (drainPlay fuel q log).1.nextPlayOrder ≤ q.tasks.length ∧
      (∀ t ∈ q.tasks.take (drainPlay fuel q log).1.nextPlayOrder,
        t.status = .completed) ∧
      (drainPlay fuel q log).2 =
        (q.tasks.take (drainPlay fuel q log).1.nextPlayOrder).map payloadOf ∧
      (q.tasks.length - q.nextPlayOrder ≤ fuel →
        getNextPlayableTask (drainPlay fuel q log).1 = none) := by
  induction fuel with
  | zero =>
    intro q log hwi hcur hpre hlog
    refine ⟨rfl, le_refl _, hcur, hpre, hlog, ?_⟩
    intro hfuel
    exact no_playable_of_len_le q hwi (by omega)
  | succ n ih =>
    intro q log hwi hcur hpre hlog
    cases hp : getNextPlayableTask q with
    | none =>
      have hred : drainPlay (n + 1) q log = (q, log) := by
        simp only [drainPlay, hp]
      rw [hred]
      exact ⟨rfl, le_refl _, hcur, hpre, hlog, fun _ => hp⟩
    | some t =>
      obtain ⟨htmem, htord, htcomp, htaud⟩ := getNextPlayableTask_spec q t hp
      obtain ⟨hlt, hget⟩ := wellIndexed_mem_get q.tasks hwi t htmem
      have hcurlt : q.nextPlayOrder < q.tasks.length := htord ▸ hlt
      have hmark : markAsPlayed t.id q =
          { q with nextPlayOrder := q.nextPlayOrder + 1 } :=
        markAsPlayed_of_mem t.id q ⟨t, htmem, rfl⟩
      have hgetc : q.tasks.get ⟨q.nextPlayOrder, hcurlt⟩ = t := by
        have hfin : (⟨q.nextPlayOrder, hcurlt⟩ : Fin q.tasks.length) =
            ⟨t.order, hlt⟩ := Fin.ext htord.symm
        rw [hfin, hget]
      have hgetc' : q.tasks[q.nextPlayOrder] = t := hgetc
      have htake : q.tasks.take (q.nextPlayOrder + 1) =
          q.tasks.take q.nextPlayOrder ++ [t] := by
        rw [List.take_succ, List.getElem?_eq_getElem hcurlt]
        simp [hgetc']
      have hpre' : ∀ u ∈ q.tasks.take (q.nextPlayOrder + 1),
          u.status = .completed := by
        intro u hu
        rw [htake] at hu
        rcases List.mem_append.mp hu with h1 | h2
        · exact hpre u h1
        · rw [List.mem_singleton.mp h2]
          exact htcomp
      have hlog' : log ++ [payloadOf t] =
          (q.tasks.take (q.nextPlayOrder + 1)).map payloadOf := by
        rw [htake, List.map_append, hlog]
        rfl
      obtain ⟨i1, i2, i3, i4, i5, i6⟩ :=
        ih { q with nextPlayOrder := q.nextPlayOrder + 1 } (log ++ [payloadOf t])
          hwi (show q.nextPlayOrder + 1 ≤ q.tasks.length by omega) hpre' hlog'
      have hred : drainPlay (n + 1) q log =
          drainPlay n (markAsPlayed t.id q) (log ++ [t.audioData.getD []]) := by
        simp only [drainPlay, hp]
      rw [hred, hmark]
      have i2' : q.nextPlayOrder + 1 ≤
          (drainPlay n { q with nextPlayOrder := q.nextPlayOrder + 1 }
            (log ++ [t.audioData.getD []])).1.nextPlayOrder := i2
      refine ⟨i1, by omega, i3, i4, i5, ?_⟩
      intro hfuel
      refine i6 ?_
      show q.tasks.length - (q.nextPlayOrder + 1) ≤ n
      omega

/-! ### C1: playback order equals enqueue order on success-only traces -/

/-- A status update that does not complete a task cannot create a playable
task. -/
theorem no_playable_updateTaskStatus (s : TTSQueueState) (id : Nat)
    (st : TTSTaskStatus) (a : Option (List Nat)) (e : Option String)
    (hnp : getNextPlayableTask s = none) (hst : st ≠ .completed) :
    getNextPlayableTask (updateTaskStatus id st a e s) = none := by
  unfold getNextPlayableTask at hnp ⊢
  rw [List.find?_eq_none] at hnp ⊢
  intro x hx
  rcases mem_updTasks id st a e s.tasks x hx with ⟨u, hu, _, hxeq⟩ | ⟨hxl, _⟩
  · intro hcontra
    simp only [Bool.and_eq_true, beq_iff_eq] at hcontra
    have hxs := hcontra.1.2
    rw [hxeq] at hxs
    exact hst hxs
  · exact hnp x hxl

/-- Preservation of the strengthened invariant along success-only events. -/
theorem okInv_step (mc : Nat) (ev : EEvent) (s : ExecState)
    (hok : OkInv mc s) (hallow : successOnly ev) (hen : enabled mc ev s) :
    OkInv mc (applyEvent ev s) := by
  have hbase := execInv_step mc ev s hok.toExecInv hen
  cases ev with
  | failSynth id err => exact hallow.elim
  | failEmpty id => exact hallow.elim
  | stopClear => exact hallow.elim
  | staleComplete id payload => exact hallow.elim
  | enq text =>
    refine ⟨hbase, ?_, ?_, ?_, ?_, ?_⟩
    · show s.q.nextPlayOrder ≤ (s.q.tasks ++ [freshTask text s.q.nextOrder]).length
      have h := hok.cursor_le
      simp only [List.length_append, List.length_singleton]
      omega
    · show ∀ t ∈ (s.q.tasks ++ [freshTask text s.q.nextOrder]).take
          s.q.nextPlayOrder, t.status = .completed
      rw [List.take_append_of_le_length hok.cursor_le]
      exact hok.prefix_completed
    · show s.played = ((s.q.tasks ++ [freshTask text s.q.nextOrder]).take
          s.q.nextPlayOrder).map payloadOf
      rw [List.take_append_of_le_length hok.cursor_le]
      exact hok.played_eq
    · show ∀ t ∈ s.q.tasks ++ [freshTask text s.q.nextOrder],
          t.status = .completed → t.audioData.isSome = true
      intro t ht hcomp
      rcases List.mem_append.mp ht with h1 | h2
      · exact hok.completed_audio t h1 hcomp
      · rw [List.mem_singleton.mp h2] at hcomp
        simp [freshTask] at hcomp
    · show getNextPlayableTask ((addTask text s.q).2) = none
      unfold getNextPlayableTask
      rw [List.find?_eq_none]
      intro x hx
      rcases List.mem_append.mp hx with h1 | h2
      · have hn := hok.no_playable
        unfold getNextPlayableTask at hn
        rw [List.find?_eq_none] at hn
        exact hn x h1
      · rw [List.mem_singleton.mp h2]
        intro hcontra
        simp [freshTask] at hcontra
  | start =>
    cases hstart : getNextPendingTask s.q with
    | none =>
      have happ : applyEvent .start s = s := by
        dsimp only [applyEvent]
        rw [hstart]
      rw [happ]
      exact hok
    | some t =>
      have happ : applyEvent .start s =
          { s with
            q := updateTaskStatus t.id .processing none none s.q,
            inflight := t.id :: s.inflight } := by
        dsimp only [applyEvent]
        rw [hstart]
      obtain ⟨hmem, hpend⟩ := getNextPendingTask_spec s.q t hstart
      have htid : t.id = t.order := (wellIndexed_mem s.q.tasks 0 hok.wi t hmem).1
      have hge : s.q.nextPlayOrder ≤ t.order :=
        order_ge_of_not_completed s.q.tasks hok.wi s.q.nextPlayOrder
          hok.prefix_completed t hmem (by rw [hpend]; intro hc; cases hc)
      have hpref_ids : ∀ u ∈ s.q.tasks.take s.q.nextPlayOrder, u.id ≠ t.id := by
        intro u hu
        obtain ⟨huid, hult⟩ := mem_take_order_lt s.q.tasks hok.wi _ u hu
        omega
      have htk := updTasks_take t.id .processing none none s.q.tasks
        s.q.nextPlayOrder hpref_ids
      rw [happ] at hbase ⊢
      refine ⟨hbase, ?_, ?_, ?_, ?_, ?_⟩
      · show s.q.nextPlayOrder ≤ (updTasks t.id .processing none none s.q.tasks).length
        rw [updTasks_length]
        exact hok.cursor_le
      · show ∀ u ∈ (updTasks t.id .processing none none s.q.tasks).take
            s.q.nextPlayOrder, u.status = .completed
        rw [htk]
        exact hok.prefix_completed
      · show s.played = ((updTasks t.id .processing none none s.q.tasks).take
            s.q.nextPlayOrder).map payloadOf
        rw [htk]
        exact hok.played_eq
      · show ∀ u ∈ updTasks t.id .processing none none s.q.tasks,
            u.status = .completed → u.audioData.isSome = true
        intro x hx hcomp
        rcases mem_updTasks t.id .processing none none s.q.tasks x hx with
          ⟨u, hu, _, hxeq⟩ | ⟨hxl, _⟩
        · rw [hxeq] at hcomp
          simp at hcomp
        · exact hok.completed_audio x hxl hcomp
      · exact no_playable_updateTaskStatus s.q t.id .processing none none
          hok.no_playable (by intro hc; cases hc)
  | completeOk id payload =>
    have hid_mem : id ∈ processingIds s.q.tasks := hok.perm.mem_iff.mpr hen
    obtain ⟨u, hu, hproc, huid⟩ := mem_processingIds s.q.tasks id hid_mem
    have huidord : u.id = u.order := (wellIndexed_mem s.q.tasks 0 hok.wi u hu).1
    have hge : s.q.nextPlayOrder ≤ u.order :=
      order_ge_of_not_completed s.q.tasks hok.wi s.q.nextPlayOrder
        hok.prefix_completed u hu (by rw [hproc]; intro hc; cases hc)
    have hpref_ids : ∀ v ∈ s.q.tasks.take s.q.nextPlayOrder, v.id ≠ id := by
      intro v hv
      obtain ⟨hvid, hvlt⟩ := mem_take_order_lt s.q.tasks hok.wi _ v hv
      omega
    have htk := updTasks_take id .completed (some payload) none s.q.tasks
      s.q.nextPlayOrder hpref_ids
    have hwi1 : wellIndexed 0 (updTasks id .completed (some payload) none s.q.tasks) :=
      wellIndexed_updTasks id .completed (some payload) none s.q.tasks 0 hok.wi
    have hcur1 : s.q.nextPlayOrder ≤
        (updTasks id .completed (some payload) none s.q.tasks).length := by
      rw [updTasks_length]
      exact hok.cursor_le
    have hpre1 : ∀ v ∈ (updTasks id .completed (some payload) none s.q.tasks).take
        s.q.nextPlayOrder, v.status = .completed := by
      rw [htk]
      exact hok.prefix_completed
    have hlog1 : s.played = ((updTasks id .completed (some payload) none
        s.q.tasks).take s.q.nextPlayOrder).map payloadOf := by
      rw [htk]
      exact hok.played_eq
    obtain ⟨i1, i2, i3, i4, i5, i6⟩ := drainPlay_spec
      (updateTaskStatus id .completed (some payload) none s.q).tasks.length
      (updateTaskStatus id .completed (some payload) none s.q) s.played
      hwi1 hcur1 hpre1 hlog1
    dsimp only [applyEvent]
    refine ⟨hbase, ?_, ?_, ?_, ?_, ?_⟩
    · rw [i1]
      exact i3
    · rw [i1]
      exact i4
    · rw [i1]
      exact i5
    · rw [i1]
      intro x hx hcomp
      rcases mem_updTasks id .completed (some payload) none s.q.tasks x hx with
        ⟨v, hv, _, hxeq⟩ | ⟨hxl, _⟩
      · rw [hxeq]
        rfl
      · exact hok.completed_audio x hxl hcomp
    · exact i6 (Nat.sub_le _ _)

/-- The strengthened invariant holds in every success-only reachable state. -/
theorem okInv_reach (mc : Nat) (s : ExecState)
    (h : EReach mc successOnly s) : OkInv mc s := by
  induction h with
  | init =>
    refine ⟨⟨trivial, rfl, List.Perm.refl _, Nat.zero_le mc⟩, le_refl 0, ?_, rfl, ?_, rfl⟩
    · intro t ht; cases ht
    · intro t ht; cases ht
  | step ev _ hallow hen ih => exact okInv_step _ ev _ ih hallow hen

/-- Claim C1: on every trace where syntheses only succeed, the emission log
handed to `onAudio` is exactly the payloads of the tasks with order below the
play cursor, in enqueue order; and once every enqueued task is completed the
log is the payloads of all tasks in enqueue order — playback order equals
enqueue order regardless of completion order. -/
theorem playback_order_c1 (mc : Nat) (s : ExecState)
    (h : EReach mc successOnly s) :
    s.played = (s.q.tasks.take s.q.nextPlayOrder).map payloadOf ∧
    (∀ t ∈ s.q.tasks.take s.q.nextPlayOrder, t.status = .completed) ∧
    ((∀ t ∈ s.q.tasks, t.status = .completed) →
      s.played = s.q.tasks.map payloadOf) := by
  have hok := okInv_reach mc s h
  refine ⟨hok.played_eq, hok.prefix_completed, ?_⟩
  intro hall
  have hcur : s.q.nextPlayOrder = s.q.tasks.length := by
    by_contra hne
    have hlt : s.q.nextPlayOrder < s.q.tasks.length :=
      lt_of_le_of_ne hok.cursor_le hne
    have hget := wellIndexed_get s.q.tasks 0 hok.wi s.q.nextPlayOrder hlt
    have humem : s.q.tasks.get ⟨s.q.nextPlayOrder, hlt⟩ ∈ s.q.tasks :=
      List.get_mem _ _ _
    have hcomp := hall _ humem
    have haud := hok.completed_audio _ humem hcomp
    have hnp := hok.no_playable
    unfold getNextPlayableTask at hnp
    rw [List.find?_eq_none] at hnp
    apply hnp _ humem
    simp only [Bool.and_eq_true, beq_iff_eq]
    refine ⟨⟨?_, hcomp⟩, haud⟩
    rw [hget.2]
    omega
  rw [hok.played_eq, hcur, List.take_length]

/-- Witness for C1: the playback-order theorem at the concrete success-only
trace `c1State`. -/
theorem playback_order_c1_witness :
    c1State.played = (c1State.q.tasks.take c1State.q.nextPlayOrder).map payloadOf ∧
    (∀ t ∈ c1State.q.tasks.take c1State.q.nextPlayOrder, t.status = .completed) ∧
    ((∀ t ∈ c1State.q.tasks, t.status = .completed) →
      c1State.played = c1State.q.tasks.map payloadOf) :=
  playback_order_c1 2 c1State
    (EReach.step (.completeOk 0 [7])
      (EReach.step .start
        (EReach.step (.enq "hello there") EReach.init trivial trivial)
        trivial (by decide))
      trivial (by decide))

/-! ### C2: the failure path advances the cursor past unresolved orders -/

/-- Claim C2 is violated by the code: in the reachable state `c2State` the
play cursor has advanced to 1 although order 0's task is still `processing`
(unresolved, never played or skipped).  Task 0's payload can never be emitted
once the cursor has passed it. -/
theorem cursor_skips_unresolved_c2 :
    EReach 2 anyEvent c2State ∧
    c2State.q.nextPlayOrder = 1 ∧
    c2State.q.tasks.map (fun t => t.status) =
      [.processing, .error] ∧
    c2State.played = [] := by
  refine ⟨?_, rfl, rfl, rfl⟩
  exact EReach.step (.failSynth 1 "network error")
    (EReach.step .start
      (EReach.step .start
        (EReach.step (.enq "Sentence number two.")
          (EReach.step (.enq "Sentence number one.") EReach.init trivial trivial)
          trivial trivial)
        trivial (by decide))
      trivial (by decide))
    trivial (by decide)

/-! ### C3: a failed task can block all later playback -/

/-- Claim C3 is violated by the code: in the reachable state `c3State` the
failed task 0 was never skipped (the cursor still sits at its slot 0), task
1's completed payload is never played, and the queue nevertheless reports
`isAllCompleted` — the turn ends with no audio instead of playing B with the
cursor at 2. -/
theorem failed_task_blocks_playback_c3 :
    EReach 2 anyEvent c3State ∧
    c3State.q.nextPlayOrder = 0 ∧
    c3State.played = [] ∧
    c3State.q.isAllCompleted = true ∧
    c3State.q.tasks.map (fun t => (t.status, t.audioData)) =
      [(.error, none), (.completed, some [42])] := by
  refine ⟨?_, rfl, rfl, rfl, rfl⟩
  exact EReach.step (.completeOk 1 [42])
    (EReach.step .start
      (EReach.step (.failEmpty 0)
        (EReach.step .start
          (EReach.step (.enq "Hello, nice to meet you.")
            (EReach.step (.enq "# a") EReach.init trivial trivial)
            trivial trivial)
          trivial (by decide))
        trivial (by decide))
      trivial (by decide))
    trivial (by decide)

/-! ### C10: `processingCount` equals the number of processing tasks -/

/-- Freshly created task batches contain no processing task. -/
theorem mkTasks_filter_processing (texts : List String) :
    ∀ n, (mkTasks n texts).filter (fun t => t.status == .processing) = [] := by
  induction texts with
  | nil => intro n; rfl
  | cons text rest ih =>
    intro n
    simp only [mkTasks, List.filter_cons]
    rw [if_neg (by simp [freshTask])]
    exact ih (n + 1)

/-- Claim C10: in every reachable queue-store state, `processingCount` equals
the number of tasks whose status is `processing`; every store operation
preserves this equality. -/
theorem processingCount_invariant_c10 (s : TTSQueueState) (h : QReachable s) :
    s.processingCount =
      (s.tasks.filter fun t => t.status == .processing).length := by
  induction h with
  | init => rfl
  | step op _ ih =>
    cases op with
    | addTask text =>
      simp only [applyQOp, addTask, List.filter_append]
      rw [ih]
      simp [List.filter_cons, freshTask]
    | addTasks texts =>
      simp only [applyQOp, addTasks, List.filter_append]
      rw [mkTasks_filter_processing texts]
      simp [ih]
    | updateTaskStatus id st a e => rfl
    | markAsPlayed id =>
      simp only [applyQOp]
      rw [markAsPlayed_processingCount, markAsPlayed_tasks]
      exact ih
    | clearQueue => rfl
    | reset => rfl

/-- Witness for C10: the invariant at the reachable state obtained by
enqueuing one task and marking it `processing`. -/
theorem processingCount_invariant_c10_witness :
    (applyQOp (.updateTaskStatus 0 .processing none none)
        (applyQOp (.addTask "hello") initialState)).processingCount =
      ((applyQOp (.updateTaskStatus 0 .processing none none)
          (applyQOp (.addTask "hello") initialState)).tasks.filter
        fun t => t.status == .processing).length :=
  processingCount_invariant_c10 _
    (QReachable.step _ (QReachable.step _ QReachable.init))

/-! ### C5: the `isAllCompleted` flag -/

/-- Counterexample to C5 as stated: already in the initial (reachable) state
the flag is `true` while the task list is empty, so the claimed
"non-empty and all terminal" biconditional fails. -/
theorem initial_flag_violates_iff_c5 :
    ¬(initialState.isAllCompleted = true ↔
      (initialState.tasks ≠ [] ∧ ∀ t ∈ initialState.tasks,
        t.status = .completed ∨ t.status = .error)) := by
  decide

/-- Helper for C5: in every reachable state, a `true` flag implies that every
task is terminal. -/
theorem flag_imp_all_terminal (s : TTSQueueState) (h : QReachable s) :
    s.isAllCompleted = true → s.tasks.all isTerminal = true := by
  induction h with
  | init => intro _; rfl
  | step op _ ih =>
    cases op with
    | addTask text => intro hfalse; cases hfalse
    | addTasks texts => intro hfalse; cases hfalse
    | updateTaskStatus id st a e =>
      intro hflag
      have : allCompletedSpec (applyQOp (.updateTaskStatus id st a e) _).tasks
          = true := hflag
      exact (Bool.and_eq_true _ _ |>.mp this).2
    | markAsPlayed id =>
      simp only [applyQOp]
      rw [markAsPlayed_isAllCompleted, markAsPlayed_tasks]
      exact ih
    | clearQueue => intro _; rfl
    | reset => intro _; rfl

/-- Claim C5 (amended): in every reachable queue state the flag being `true`
implies the task list is all-terminal; the full biconditional
"`true` iff non-empty and all terminal" is restored by every
`updateTaskStatus` (which recomputes the flag); and the initial and cleared
states have an empty task list with the flag `true` (not `false`, as the
unrestricted biconditional would require). -/
theorem allCompleted_flag_c5 (s : TTSQueueState) (h : QReachable s) :
    (s.isAllCompleted = true → s.tasks.all isTerminal = true) ∧
    (∀ id st a e, (updateTaskStatus id st a e s).isAllCompleted =
      allCompletedSpec (updateTaskStatus id st a e s).tasks) ∧
    ((clearQueue s).tasks = [] ∧ (clearQueue s).isAllCompleted = true) :=
  ⟨flag_imp_all_terminal s h, fun _ _ _ _ => rfl, rfl, rfl⟩

/-- Witness for C5: the amended characterization applied after enqueuing a
task and completing it. -/
theorem allCompleted_flag_c5_witness :
    (updateTaskStatus 0 .completed (some [5]) none
        (applyQOp (.addTask "hello") initialState)).isAllCompleted =
      allCompletedSpec (updateTaskStatus 0 .completed (some [5]) none
        (applyQOp (.addTask "hello") initialState)).tasks :=
  (allCompleted_flag_c5 (applyQOp (.addTask "hello") initialState)
    (QReachable.step _ QReachable.init)).2.1 0 .completed (some [5]) none

/-! ### C9: stale status updates after `clearQueue` -/

/-- Claim C9 (amended): a stale `updateTaskStatus` for an id no longer present
after `clearQueue` leaves `tasks`, `processingCount` and `nextPlayOrder`
unchanged and causes no playback emission (the drain loop emits nothing on the
empty queue) — but it recomputes `isAllCompleted` from the empty task list,
flipping it from `true` to `false` rather than leaving it unchanged. -/
theorem stale_update_after_clear_c9 (q : TTSQueueState) (id : Nat)
    (st : TTSTaskStatus) (a : Option (List Nat)) (e : Option String) :
    (updateTaskStatus id st a e (clearQueue q)).tasks = [] ∧
    (updateTaskStatus id st a e (clearQueue q)).processingCount = 0 ∧
    (updateTaskStatus id st a e (clearQueue q)).nextPlayOrder = 0 ∧
    (updateTaskStatus id st a e (clearQueue q)).isAllCompleted = false ∧
    (clearQueue q).isAllCompleted = true ∧
    ∀ fuel log, drainPlay fuel (updateTaskStatus id st a e (clearQueue q)) log =
      (updateTaskStatus id st a e (clearQueue q), log) := by
  refine ⟨rfl, rfl, rfl, rfl, rfl, ?_⟩
  intro fuel log
  cases fuel with
  | zero => rfl
  | succ n => rfl

/-- Counterexample to C9 as stated: a stale `updateTaskStatus` arriving after
`clearQueue` does not leave `isAllCompleted` unchanged — it flips it from
`true` to `false`. -/
theorem stale_update_flips_flag_c9 :
    (clearQueue initialState).isAllCompleted = true ∧
    (updateTaskStatus 7 .completed (some [1]) none
        (clearQueue initialState)).isAllCompleted = false :=
  ⟨rfl, rfl⟩

/-- Claim C7: for every input text and every `minLength`, feeding the whole
text to `extractSentences` in one shot and feeding it character-by-character
(each step re-feeding the previous remainder extended by the next character,
accumulating emitted sentences) produce the same final sentence list and the
same final remainder. -/
theorem incremental_equals_one_shot_c7 (text : List Char) (minLength : Nat) :
    feedChars minLength ([], []) text = extractSentences text minLength := by
  rw [feedChars_eq_procChars minLength text [] [] rfl,
    extractSentences_eq_procChars]

end XMozi
